import Mathlib

/-!
Verification development for the Financial-RAG-Agent repository.

The development shallowly embeds the three core components:
* the token-aware recursive chunker of `parse_and_chunk.py`
  (`split_text_into_chunks` / `_recursive_split`),
* the retrieval store of `embed_and_store.py` (`RAGPipeline`),
* the query orchestrator of `query_agent.py` (`FinancialAgent`).

Text is represented as `List Char`.  The tokenizer (`tiktoken`, an external
capability of the source) is modelled character-level: `get_tokens` is the
identity on the character list and decoding a token slice is the slice
itself.  The structural behaviour of the chunker (separator splitting,
greedy reassembly, overlap seeding, hard token splitting) is embedded
faithfully from the source.
-/

namespace FinRag

/-- Model of `get_tokens` (`parse_and_chunk.py`, lines 21-24): tokens are the
characters of the text, so token count is list length and decoding is the
identity. -/
def get_tokens (text : List Char) : List Char := text

/-- Auxiliary worker for Python `str.split(sep)` with a non-empty separator:
scans the text, emitting the accumulated segment whenever `sep` occurs.
`cur` holds the current segment reversed.  The fuel (one unit per consumed
character, so `t.length` units suffice) keeps the recursion structural; the
zero-fuel fallback is unreachable. -/
def pySplitAux (sep : List Char) : ℕ → List Char → List Char → List (List Char)
  | _, [], cur => [cur.reverse]
  | 0, t, cur => [cur.reverse ++ t]
  | fuel + 1, c :: rest, cur =>
    if sep.isPrefixOf (c :: rest) then
      cur.reverse :: pySplitAux sep fuel (rest.drop (sep.length - 1)) []
    else
      pySplitAux sep fuel rest (c :: cur)

/-- Python `text.split(sep)` for a non-empty `sep` (the source only splits on
`"\n\n"`, `"\n"` and `" "`): keeps empty segments, returns `[text]` when the
separator does not occur, and `[""]` on empty input. -/
def pySplit (sep t : List Char) : List (List Char) := pySplitAux sep t.length t []

/-- Python `str.strip()`: remove leading and trailing whitespace. -/
def pyStrip (t : List Char) : List Char :=
  ((t.dropWhile Char.isWhitespace).reverse.dropWhile Char.isWhitespace).reverse

/-- `current_separator.join(current_chunk_parts).strip()` from
`parse_and_chunk.py` lines 169 and 191. -/
def joinStrip (sep : List Char) (parts : List (List Char)) : List Char :=
  pyStrip (List.intercalate sep parts)

/-- Fuel-indexed worker for the hard token split (`parse_and_chunk.py`
lines 136-143): windows of `S` tokens taken every `step` tokens.  The fuel
only cuts off the case `step = 0` (where the Python `while` loop would not
terminate); it is never reached under the documented precondition
`overlap < chunk size`. -/
def hardTokenSplitFuel (S step : ℕ) : ℕ → List Char → List (List Char)
  | 0, _ => []
  | _ + 1, [] => []
  | fuel + 1, c :: rest =>
    (c :: rest).take S :: hardTokenSplitFuel S step fuel ((c :: rest).drop step)

/-- The hard token-index split used when a run longer than `S` tokens has no
separator left: pieces `tokens[start : start+S]` for `start = 0, S-O,
2*(S-O), …`. -/
def hard_token_split (S O : ℕ) (tokens : List Char) : List (List Char) :=
  hardTokenSplitFuel S (S - O) tokens.length tokens

/-- State of the greedy reassembly loop of `_recursive_split`
(lines 151-193): the sealed chunks so far (`temp_chunks`), the parts of the
chunk under construction (`current_chunk_parts`) and the running token count
(`current_chunk_token_count`). -/
structure GreedyState where
  temp : List (List Char)
  cur : List (List Char)
  cnt : ℕ
deriving Repr, DecidableEq

/-- `separator_tokens_len` of line 163: the separator's token cost is counted
only when the separator is non-empty and some part has been accumulated. -/
def sep_token_cost (sep : List Char) (cur : List (List Char)) : ℕ :=
  if sep ≠ [] ∧ cur ≠ [] then sep.length else 0

/-- Lines 179-181: the overlap seed is the last `O` tokens of the previous
chunk, decoded back to text (`max 0 (len - O)` is saturating subtraction). -/
def overlap_seed (O : ℕ) (lastChunk : List Char) : List Char :=
  lastChunk.drop (lastChunk.length - O)

/-- Seal the chunk under construction if any parts were accumulated
(lines 168-169 and 190-191): join with the current separator and strip. -/
def seal_current (sep : List Char) (st : GreedyState) : List (List Char) :=
  if st.cur = [] then st.temp else st.temp ++ [joinStrip sep st.cur]

/-- One iteration of the inner loop of `_recursive_split` (lines 159-187) on
a single `sub_part`: if adding it would exceed the bound, seal the current
chunk, optionally seed the overlap, and start a new chunk; in both cases the
`sub_part` is appended to the chunk under construction. -/
def greedy_step (S O : ℕ) (sep : List Char) (st : GreedyState) (sub : List Char) :
    GreedyState :=
  if S < st.cnt + (get_tokens sub).length + sep_token_cost sep st.cur then
    if 0 < O ∧ seal_current sep st ≠ [] then
      ⟨seal_current sep st,
       [overlap_seed O ((seal_current sep st).getLastD []), sub],
       (get_tokens (overlap_seed O ((seal_current sep st).getLastD []))).length +
         (get_tokens sub).length⟩
    else
      ⟨seal_current sep st, [sub], (get_tokens sub).length⟩
  else
    ⟨st.temp, st.cur ++ [sub], st.cnt + (get_tokens sub).length⟩

/-- The greedy reassembly of one recursion level: fold the inner loop over
all `sub_part`s (the Python double loop over `parts` and
`sub_parts_from_recursion` visits exactly the concatenation), then seal any
leftover parts (lines 190-191). -/
def greedy_assemble (S O : ℕ) (sep : List Char) (subs : List (List Char)) :
    List (List Char) :=
  seal_current sep (subs.foldl (greedy_step S O sep) ⟨[], [], 0⟩)

/-- The prioritized separators of line 128. -/
def separators : List (List Char) := [['\n', '\n'], ['\n'], [' ']]

/-- `_recursive_split` (lines 130-193), recursing on the list of remaining
separators (Python's `separator_index` walks this list): a text within the
bound is returned whole; with no separators left an over-long text is
hard-split by token index; otherwise the text is split by the current
separator, each part reduced recursively, and the results greedily
reassembled. -/
def recursive_split (S O : ℕ) : List (List Char) → List Char → List (List Char)
  | [], text =>
    if S < (get_tokens text).length then hard_token_split S O (get_tokens text)
    else [text]
  | sep :: rest, text =>
    if (get_tokens text).length ≤ S then [text]
    else
      greedy_assemble S O sep
        ((pySplit sep text).map (recursive_split S O rest)).flatten

/-- `split_text_into_chunks(text, chunk_size_tokens, chunk_overlap_tokens)`
(lines 119-195). -/
def split_text_into_chunks (text : List Char) (S O : ℕ) : List (List Char) :=
  recursive_split S O separators text

/-! ## Retrieval store (`embed_and_store.py`) -/

/-- One chunk-metadata record as written by `process_filings`
(`parse_and_chunk.py` lines 260-268) and loaded by the pipeline.
`chunk_id` is optional so that the dictionary access `chunk.get('chunk_id')`
of `query_agent.py` can be modelled. -/
structure ChunkMeta where
  text : List Char
  company : List Char
  year : List Char
  source_doc : List Char
  chunk_id : Option (List Char)
  page : ℕ
deriving Repr, DecidableEq

/-- One element of the list built by `RAGPipeline.retrieve_chunks`
(`embed_and_store.py` lines 113-121). -/
structure RetrievedChunk where
  text : List Char
  company : List Char
  year : List Char
  source_doc : List Char
  chunk_id : Option (List Char)
  page : ℕ
  distance : ℤ
deriving Repr, DecidableEq

/-- Squared L2 distance, the metric of `faiss.IndexFlatL2`.  Vector
components are rationals (exact arithmetic stands in for the floats of the
external library). -/
def l2sq (u v : List ℤ) : ℤ := (u.zipWith (fun a b => (a - b) * (a - b)) v).sum

/-- Comparison of scored labels by distance. -/
def distLE (a b : ℤ × ℤ) : Prop := a.2 ≤ b.2

instance : DecidableRel distLE := fun a b => inferInstanceAs (Decidable (a.2 ≤ b.2))

instance : IsTotal (ℤ × ℤ) distLE := ⟨fun a b => le_total a.2 b.2⟩

instance : IsTrans (ℤ × ℤ) distLE := ⟨fun _ _ _ h1 h2 => le_trans h1 h2⟩

/-- Model of `faiss.IndexFlatL2.search(query_embedding, k)` (the external
vector-index capability): exact nearest-neighbour search returning `k`
(label, distance) pairs — the `min(k, ntotal)` stored vectors in
non-decreasing squared-L2 order, padded with label `-1` entries when `k`
exceeds the number of stored vectors, as FAISS does. -/
def faissSearch (vecs : List (List ℤ)) (q : List ℤ) (k : ℕ) : List (ℤ × ℤ) :=
  let scored : List (ℤ × ℤ) := vecs.enum.map fun p => ((p.1 : ℤ), l2sq q p.2)
  let sorted := List.insertionSort distLE scored
  sorted.take k ++ List.replicate (k - sorted.length) ((-1 : ℤ), 0)

/-- Building one result dictionary (`embed_and_store.py` lines 113-121). -/
def mkHit (c : ChunkMeta) (d : ℤ) : RetrievedChunk :=
  ⟨c.text, c.company, c.year, c.source_doc, c.chunk_id, c.page, d⟩

/-- The resolution loop of `retrieve_chunks` (lines 110-124): every returned
label inside `[0, len(metadata))` resolves to its metadata record in order;
any other label is skipped (the defensive warning of line 123). -/
def resolveHits (meta : List ChunkMeta) (raw : List (ℤ × ℤ)) :
    List RetrievedChunk :=
  raw.filterMap fun e =>
    if h : 0 ≤ e.1 ∧ e.1.toNat < meta.length then
      some (mkHit (meta.get ⟨e.1.toNat, h.2⟩) e.2)
    else none

/-- State of a `RAGPipeline` object: whether the sentence-transformer loaded
(`self.model`), the embedding capability itself (opaque, text to vector),
the FAISS index contents (`self.index`, `none` before any build/load), and
`self.chunks_metadata`. -/
structure RAGPipeline where
  modelLoaded : Bool
  encode : List Char → List ℤ
  index : Option (List (List ℤ))
  chunks_metadata : List ChunkMeta

/-- The pipeline state after a successful
`_create_and_save_embeddings_and_index` over `meta`: the index holds the
embeddings of the metadata texts in supply order, so index and metadata have
equal length by construction. -/
def buildFromMetadata (enc : List Char → List ℤ) (meta : List ChunkMeta) :
    RAGPipeline :=
  ⟨true, enc, some (meta.map fun c => enc c.text), meta⟩

/-- Body of the `try` of `retrieve_chunks` (lines 105-124).  The one
modelled failure is the invalid-`k` error FAISS raises for `k ≤ 0`; the
embedding call and the metadata accesses are total.  `k` is an arbitrary
integer, as in Python. -/
def retrieveBody (rag : RAGPipeline) (query : List Char) (k : ℤ) :
    Except (List Char) (List RetrievedChunk) :=
  if k ≤ 0 then .error "faiss search requires k > 0".toList
  else .ok (resolveHits rag.chunks_metadata
    (faissSearch (rag.index.getD []) (rag.encode query) k.toNat))

/-- `RAGPipeline.retrieve_chunks` (lines 97-127): the not-initialized guard
of line 101 returns `[]`, and the surrounding `try/except` turns any raised
error into `[]` (lines 125-127). -/
def retrieve_chunks (rag : RAGPipeline) (query : List Char) (k : ℤ) :
    List RetrievedChunk :=
  if rag.modelLoaded = false ∨ rag.index.isNone ∨ rag.chunks_metadata = [] then []
  else
    match retrieveBody rag query k with
    | .ok hits => hits
    | .error _ => []

/-- On-disk world seen by `load_or_create_index`: each of the two files is
absent (`none`), present but failing to read/parse (`some none`), or present
with its content (`some (some _)`). -/
structure Disk where
  faiss_index : Option (Option (List (List ℤ)))
  chunk_metadata : Option (Option (List ChunkMeta))

/-- `RAGPipeline._load_chunks_metadata` (lines 35-48): `False` when the file
is missing; `json.load` errors are caught inside and give `False`; on
success `self.chunks_metadata` is replaced and `True` returned. -/
def load_chunks_metadata (d : Disk) (st : RAGPipeline) : Bool × RAGPipeline :=
  match d.chunk_metadata with
  | none => (false, st)
  | some none => (false, st)
  | some (some l) => (true, { st with chunks_metadata := l })

/-- `RAGPipeline._create_and_save_embeddings_and_index` (lines 50-78): fails
without a model or without (non-empty) metadata; otherwise embeds every
metadata text in order and installs the index.  The embedding call and the
index write of the external libraries are modelled as succeeding. -/
def create_and_save_embeddings_and_index (d : Disk) (st : RAGPipeline) :
    Bool × RAGPipeline :=
  if st.modelLoaded = false then (false, st)
  else
    match load_chunks_metadata d st with
    | (false, st') => (false, st')
    | (true, st') =>
      if st'.chunks_metadata = [] then (false, st')
      else
        (true, { st' with
          index := some (st'.chunks_metadata.map fun c => st'.encode c.text) })

/-- `RAGPipeline.load_or_create_index` (lines 80-95): when both files exist,
read the index; a raising read falls back to the rebuild; on a successful
read the metadata loader is invoked with its success flag ignored (line 88)
and `True` is returned.  When either file is missing, rebuild. -/
def load_or_create_index (d : Disk) (st : RAGPipeline) : Bool × RAGPipeline :=
  match d.faiss_index, d.chunk_metadata with
  | some fi, some _ =>
    match fi with
    | some vecs =>
      (true, (load_chunks_metadata d { st with index := some vecs }).2)
    | none => create_and_save_embeddings_and_index d st
  | _, _ => create_and_save_embeddings_and_index d st

/-! ## Query orchestrator (`query_agent.py`)

The generation capability is passed as an opaque total function
`gen : List Char → List Char` standing for the already-wrapped `_call_llm`
(which catches its own exceptions and returns an inline error string, so the
caller always receives text). -/

/-- One entry of the `sources` list built by `_synthesize_answer`
(lines 84-90). -/
structure SourceEntry where
  company : List Char
  year : List Char
  excerpt : List Char
  page : ℕ
  source_doc : List Char
deriving Repr, DecidableEq

/-- The triple returned by `_synthesize_answer`, together with an
instrumentation field counting the generation-capability calls the
synthesis step performed. -/
structure SynthResult where
  answer : List Char
  reasoning : List Char
  sources : List SourceEntry
  genCalls : ℕ
deriving Repr, DecidableEq

/-- Decimal rendering of a number, for the `f"--- Source {i+1} …"` header. -/
def natToChars (n : ℕ) : List Char := (toString n).toList

/-- The per-source header of the context block (line 82). -/
def sourceHeader (i : ℕ) (d : RetrievedChunk) : List Char :=
  "--- Source ".toList ++ natToChars (i + 1) ++ " (".toList ++ d.company ++
    " ".toList ++ d.year ++ " - Page ".toList ++ natToChars d.page ++
    ") ---\n".toList

/-- The accumulated `context_str` of lines 79-83. -/
def buildContext (data : List RetrievedChunk) : List Char :=
  (data.enum.map fun p => sourceHeader p.1 p.2 ++ p.2.text ++ "\n\n".toList).flatten

/-- The synthesis prompt of lines 99-113 (the instructional sentences are
reproduced in condensed form — no claim depends on the prompt wording, and
the generation capability is opaque). -/
def synthesisPrompt (original_query : List Char) (sub_queries : List (List Char))
    (context : List Char) : List Char :=
  ("You are a financial analysis AI. Based on the following information " ++
   "retrieved from financial filings, answer the original user query " ++
   "comprehensively and concisely.\nOriginal Query: \"").toList ++
  original_query ++ "\"\nSub-queries performed: ".toList ++
  List.intercalate ", ".toList sub_queries ++
  "\nRetrieved Context (multiple sources may be provided):\n".toList ++
  context ++
  "\nPlease provide a direct answer, followed by your reasoning.\nAnswer:\n".toList

/-- The decomposition prompt of lines 29-62 (condensed likewise). -/
def decompositionPrompt (query : List Char) : List Char :=
  ("You are an expert financial analyst. Your task is to break down the " ++
   "following complex question into a list of concise, independent " ++
   "sub-queries.\nYour response should be ONLY a comma-separated list of " ++
   "sub-queries. Do not include any other text or formatting.\n" ++
   "Question: \"").toList ++ query ++ "\"\nSub-queries:\n".toList

/-- Scanner for Python `raw.split("Reasoning:", 1)`: text before the first
occurrence of the marker (accumulated reversed in `pre`) and the text after
it, if any. -/
def splitFirstAux (marker : List Char) :
    List Char → List Char → Option (List Char × List Char)
  | [], _ => none
  | c :: rest, pre =>
    if marker.isPrefixOf (c :: rest) then
      some (pre.reverse, (c :: rest).drop marker.length)
    else splitFirstAux marker rest (c :: pre)

/-- Python `t.split(marker, 1)`: the part before the first occurrence and,
when the marker occurs, the part after it. -/
def pySplitOnce (marker t : List Char) : List Char × Option (List Char) :=
  match splitFirstAux marker t [] with
  | none => (t, none)
  | some (a, b) => (a, some b)

/-- The fixed no-information answer of line 76. -/
def noInfoAnswer : List Char :=
  "Could not find relevant information to answer the query.".toList

/-- `FinancialAgent._synthesize_answer` (lines 70-122): with no retrieved
data, the fixed answer, fixed reasoning and empty sources are returned
without calling the generation capability; otherwise the context and the
sources (200-character excerpt plus ellipsis, line 87) are built, the
capability is called once, and the response is split at the first
`"Reasoning:"` marker. -/
def synthesize_answer (gen : List Char → List Char) (original_query : List Char)
    (retrieved_data : List RetrievedChunk) (sub_queries : List (List Char)) :
    SynthResult :=
  if retrieved_data = [] then
    ⟨noInfoAnswer, "No relevant data retrieved.".toList, [], 0⟩
  else
    let sources := retrieved_data.map fun d =>
      (⟨d.company, d.year, d.text.take 200 ++ "...".toList, d.page,
        d.source_doc⟩ : SourceEntry)
    let reasoning_str :=
      if 1 < sub_queries.length then
        ("Performed query decomposition, retrieved data for multiple " ++
         "sub-queries, and synthesized the results.").toList
      else "Retrieved relevant information and synthesized the answer.".toList
    let raw := gen (synthesisPrompt original_query sub_queries
      (buildContext retrieved_data))
    let parts := pySplitOnce "Reasoning:".toList raw
    let final_reasoning := reasoning_str ++ "\n".toList ++
      (match parts.2 with
       | some a => pyStrip a
       | none => ("No specific reasoning provided by LLM, relying on " ++
                  "agent's default reasoning.").toList)
    ⟨pyStrip parts.1, final_reasoning, sources, 1⟩

/-- `FinancialAgent._decompose_query` (lines 25-68): split the response on
commas, strip, drop empties, then strip a leading `"- "` bullet and strip
again. -/
def decompose_query (gen : List Char → List Char) (query : List Char) :
    List (List Char) :=
  let response := gen (decompositionPrompt query)
  let subs := ((pySplit [','] response).map pyStrip).filter (· ≠ [])
  subs.map fun q =>
    pyStrip (if ("- ".toList).isPrefixOf q then q.drop 2 else q)

/-- Substring test (Python `in`). -/
def containsSub (pat t : List Char) : Bool :=
  t.tails.any fun s => pat.isPrefixOf s

/-- The decomposition-gate keywords of line 134. -/
def decompositionKeywords : List (List Char) :=
  ["compare".toList, "highest".toList, "lowest".toList, "growth from".toList,
   "each company".toList, "across all".toList]

/-- Lines 130-141 of `answer_query`: the sub-query list is the original
query alone unless a keyword triggers decomposition and decomposition
returns a non-empty list. -/
def computeSubQueries (gen : List Char → List Char) (query : List Char) :
    List (List Char) :=
  if decompositionKeywords.any (fun kw => containsSub kw (query.map Char.toLower)) then
    let dq := decompose_query gen query
    if dq = [] then [query] else dq
  else [query]

/-- The deduplication key of line 167: `chunk.get('chunk_id') or
chunk['text'] + chunk['source_doc']` — the fallback applies when `chunk_id`
is absent or falsy (the empty string). -/
def dedupKey (c : RetrievedChunk) : List Char :=
  match c.chunk_id with
  | some s => if s = [] then c.text ++ c.source_doc else s
  | none => c.text ++ c.source_doc

/-- Whether some already-kept chunk has the given key. -/
def keyMem (k : List Char) (acc : List RetrievedChunk) : Bool :=
  acc.any fun c => dedupKey c = k

/-- The dedup of `answer_query` lines 162-171: a dict keyed by `dedupKey`
keeps the first chunk per key, and `list(values())` preserves insertion
order, so the result appends a chunk exactly when its key is new. -/
def dedupChunks (l : List RetrievedChunk) : List RetrievedChunk :=
  l.foldl (fun acc c => if keyMem (dedupKey c) acc then acc else acc ++ [c]) []

/-- The output dictionary of `answer_query` (lines 177-183), plus the
instrumentation count of generation calls made by the synthesis stage. -/
structure AgentOutput where
  query : List Char
  answer : List Char
  reasoning : List Char
  sub_queries : List (List Char)
  sources : List SourceEntry
  synthesisGenCalls : ℕ
deriving Repr, DecidableEq

/-- `FinancialAgent.answer_query` (lines 124-185): compute the sub-queries,
retrieve the top 5 chunks for each (line 157), deduplicate the accumulated
chunks, synthesize, and package. -/
def answer_query (rag : RAGPipeline) (gen : List Char → List Char)
    (query : List Char) : AgentOutput :=
  let sub_queries := computeSubQueries gen query
  let all_retrieved := (sub_queries.map fun q => retrieve_chunks rag q 5).flatten
  let final_chunks := dedupChunks all_retrieved
  let syn := synthesize_answer gen query final_chunks sub_queries
  ⟨query, syn.answer, syn.reasoning, sub_queries, syn.sources, syn.genCalls⟩

/-! ## Lemmas about the hard token split -/

/-- Every window the fuel-indexed worker emits has at most `S` tokens. -/
theorem hardTokenSplitFuel_mem_length_le (S step : ℕ) :
    ∀ (fuel : ℕ) (t p : List Char), p ∈ hardTokenSplitFuel S step fuel t →
      p.length ≤ S := by
  intro fuel
  induction fuel with
  | zero => intro t p hp; simp [hardTokenSplitFuel] at hp
  | succ n ih =>
    intro t p hp
    cases t with
    | nil => simp [hardTokenSplitFuel] at hp
    | cons c rest =>
      simp only [hardTokenSplitFuel, List.mem_cons] at hp
      rcases hp with h | h
      · subst h
        simp only [List.length_take]
        omega
      · exact ih _ _ h

/-- The `i`-th window starts at token index `i * step` and spans `S`
tokens. -/
theorem hardTokenSplitFuel_get (S step : ℕ) :
    ∀ (fuel : ℕ) (t : List Char) (i : ℕ)
      (h : i < (hardTokenSplitFuel S step fuel t).length),
      (hardTokenSplitFuel S step fuel t).get ⟨i, h⟩ =
        (t.drop (i * step)).take S := by
  intro fuel
  induction fuel with
  | zero => intro t i h; simp [hardTokenSplitFuel] at h
  | succ n ih =>
    intro t i h
    cases t with
    | nil => simp [hardTokenSplitFuel] at h
    | cons c rest =>
      cases i with
      | zero => simp [hardTokenSplitFuel]
      | succ j =>
        simp only [hardTokenSplitFuel, List.length_cons, List.get_cons_succ] at h ⊢
        rw [ih ((c :: rest).drop step) j]
        rw [List.drop_drop]
        congr 2
        ring

/-- With a positive step, the fuel `t.length` never cuts the split short:
every window start inside the input produces a window. -/
theorem hardTokenSplitFuel_complete (S step : ℕ) (hstep : 0 < step) :
    ∀ (fuel : ℕ) (t : List Char) (i : ℕ), t.length ≤ fuel →
      i * step < t.length → i < (hardTokenSplitFuel S step fuel t).length := by
  intro fuel
  induction fuel with
  | zero =>
    intro t i hf hi
    omega
  | succ n ih =>
    intro t i hf hi
    cases t with
    | nil => simp at hi
    | cons c rest =>
      cases i with
      | zero => simp [hardTokenSplitFuel]
      | succ j =>
        have hdrop : ((c :: rest).drop step).length ≤ n := by
          simp only [List.length_drop, List.length_cons]
          simp only [List.length_cons] at hf
          omega
        have hj : j * step < ((c :: rest).drop step).length := by
          simp only [List.length_drop, List.length_cons]
          simp only [List.length_cons] at hi
          have : (j + 1) * step = j * step + step := by ring
          omega
        have := ih ((c :: rest).drop step) j hdrop hj
        simp only [hardTokenSplitFuel, List.length_cons]
        omega

/-! ## Claim theorems: chunker -/

/-- C1 counterexample.  `split_text_into_chunks "aaaaaaa" 3 1` returns the
chunk `"a\n\na\na aaa"` of 10 tokens — far above the bound `S = 3` — and
that chunk is not a single indivisible token run (it contains whitespace
separators), so the claimed exception does not apply: the chunk-bound claim
is false on the code.  (The greedy reassembly of `_recursive_split` never
counts the join separators into the running total and does not re-check the
bound after seeding the overlap, so every recursion level can re-join
hard-split pieces into oversized chunks.) -/
theorem chunk_bound_counterexample :
    ∃ c ∈ split_text_into_chunks "aaaaaaa".toList 3 1,
      3 < (get_tokens c).length ∧ ' ' ∈ c := by decide

/-- C1, amended.  What the code guarantees is the hard-split clause: the
hard token-index split emits windows of at most `S` tokens each, window `i`
starting at exactly token index `i * (S - O)`, and (for `O < S`) a window
for every start inside the run.  The assembled chunks of
`split_text_into_chunks`, however, may exceed `S` (see the counterexample):
the greedy reassembly adds uncounted join separators and an overlap seed on
top of sub-parts that may already have `S` tokens. -/
theorem hard_token_split_bound (S O : ℕ) (t : List Char) (hO : O < S) :
    (∀ p ∈ hard_token_split S O t, (get_tokens p).length ≤ S) ∧
    (∀ (i : ℕ) (h : i < (hard_token_split S O t).length),
      (hard_token_split S O t).get ⟨i, h⟩ = (t.drop (i * (S - O))).take S) ∧
    (∀ i : ℕ, i * (S - O) < t.length →
      i < (hard_token_split S O t).length) := by
  refine ⟨?_, ?_, ?_⟩
  · intro p hp
    exact hardTokenSplitFuel_mem_length_le S (S - O) t.length t p hp
  · intro i h
    exact hardTokenSplitFuel_get S (S - O) t.length t i h
  · intro i hi
    exact hardTokenSplitFuel_complete S (S - O) (by omega) t.length t i le_rfl hi

/-- Witness for the amended C1 theorem at `S = 3`, `O = 1`,
`t = "aaaaaaa"`. -/
theorem hard_token_split_bound_witness :
    (∀ p ∈ hard_token_split 3 1 "aaaaaaa".toList, (get_tokens p).length ≤ 3) ∧
    (∀ (i : ℕ) (h : i < (hard_token_split 3 1 "aaaaaaa".toList).length),
      (hard_token_split 3 1 "aaaaaaa".toList).get ⟨i, h⟩ =
        ("aaaaaaa".toList.drop (i * (3 - 1))).take 3) ∧
    (∀ i : ℕ, i * (3 - 1) < "aaaaaaa".toList.length →
      i < (hard_token_split 3 1 "aaaaaaa".toList).length) :=
  hard_token_split_bound 3 1 "aaaaaaa".toList (by decide)

/-- C5 counterexample.  An empty document does not yield an empty chunk
sequence: `_recursive_split` hits its base case (`0 ≤ S`) and returns
`[current_text]`, i.e. the singleton list containing the empty chunk. -/
theorem empty_doc_counterexample :
    split_text_into_chunks [] 5 1 ≠ [] := by decide

/-- C5, amended.  For every chunk size and overlap, the empty document
yields exactly one chunk, the empty string (not the empty sequence the
claim states). -/
theorem empty_doc_singleton (S O : ℕ) :
    split_text_into_chunks [] S O = [[]] := by
  simp [split_text_into_chunks, separators, recursive_split, get_tokens]

/-! ## Overlap continuity -/

/-- The relation that does hold between adjacent chunks: the later chunk is
the whitespace-stripped form of a text that begins with the decoded
last-`O`-token overlap of the earlier chunk. -/
def OverlapRel (O : ℕ) (c c' : List Char) : Prop :=
  ∃ pre, overlap_seed O c <+: pre ∧ c' = pyStrip pre

/-- Loop invariant of the greedy reassembly: parts are only accumulated
after the overlap seed (so `cur` is empty only before the first part, every
pair of sealed chunks is in `OverlapRel`, and a non-empty `cur` next to a
non-empty `temp` starts with the overlap of the last sealed chunk). -/
def GreedyInv (O : ℕ) (_sep : List Char) (st : GreedyState) : Prop :=
  (st.cur = [] → st.temp = []) ∧
  List.Chain' (OverlapRel O) st.temp ∧
  (st.temp ≠ [] → st.cur ≠ [] →
    ∃ rest, st.cur = overlap_seed O (st.temp.getLastD []) :: rest)

/-- The head of an intercalation is a prefix of it. -/
theorem head_prefix_intercalate (sep x : List Char) (xs : List (List Char)) :
    x <+: List.intercalate sep (x :: xs) := by
  cases xs with
  | nil => simp [List.intercalate]
  | cons y ys =>
    refine ⟨sep ++ List.intercalate sep (y :: ys), ?_⟩
    simp [List.intercalate, List.intersperse]

/-- Sealing the chunk under construction preserves the adjacent-overlap
chain. -/
theorem chain'_seal_current (O : ℕ) (sep : List Char) (st : GreedyState)
    (h : GreedyInv O sep st) : List.Chain' (OverlapRel O) (seal_current sep st) := by
  unfold seal_current
  by_cases hc : st.cur = []
  · rw [if_pos hc]
    exact h.2.1
  · rw [if_neg hc]
    rw [List.chain'_append]
    refine ⟨h.2.1, List.chain'_singleton _, ?_⟩
    intro x hx y hy
    have htemp : st.temp ≠ [] := by
      intro hnil
      rw [hnil] at hx
      simp at hx
    have hlast : st.temp.getLastD [] = x := by
      rw [List.getLastD_eq_getLast?, Option.mem_def.mp hx]
      rfl
    rcases h.2.2 htemp hc with ⟨rest, hrest⟩
    have hy' : y = joinStrip sep st.cur := by
      have := hy
      simp at this
      exact this.symm
    refine ⟨List.intercalate sep st.cur, ?_, by simpa [joinStrip] using hy'⟩
    rw [hrest, hlast]
    exact head_prefix_intercalate sep _ rest

/-- One step of the greedy loop preserves the invariant (for a positive
overlap). -/
theorem greedyInv_step (S O : ℕ) (sep : List Char) (hO : 0 < O)
    (st : GreedyState) (h : GreedyInv O sep st) (sub : List Char) :
    GreedyInv O sep (greedy_step S O sep st sub) := by
  unfold greedy_step
  by_cases hov : S < st.cnt + (get_tokens sub).length + sep_token_cost sep st.cur
  · rw [if_pos hov]
    by_cases hseal : seal_current sep st = []
    · rw [if_neg (by simp [hseal])]
      refine ⟨by simp [hseal], by rw [hseal]; exact List.chain'_nil, ?_⟩
      simp [hseal]
    · rw [if_pos ⟨hO, hseal⟩]
      refine ⟨by simp, chain'_seal_current O sep st h, ?_⟩
      intro _ _
      exact ⟨[sub], rfl⟩
  · rw [if_neg hov]
    refine ⟨by simp, h.2.1, ?_⟩
    intro ht hc
    by_cases hcur : st.cur = []
    · exact absurd (h.1 hcur) ht
    · rcases h.2.2 ht hcur with ⟨rest, hrest⟩
      exact ⟨rest ++ [sub], by simp [hrest]⟩

/-- The invariant holds after folding the greedy loop over any sub-part
list. -/
theorem greedyInv_foldl (S O : ℕ) (sep : List Char) (hO : 0 < O) :
    ∀ (subs : List (List Char)) (st : GreedyState), GreedyInv O sep st →
      GreedyInv O sep (subs.foldl (greedy_step S O sep) st) := by
  intro subs
  induction subs with
  | nil => intro st h; exact h
  | cons a l ih => intro st h; exact ih _ (greedyInv_step S O sep hO st h a)

/-- Adjacent chunks of one greedy reassembly are in `OverlapRel`. -/
theorem chain'_greedy_assemble (S O : ℕ) (sep : List Char)
    (subs : List (List Char)) (hO : 0 < O) :
    List.Chain' (OverlapRel O) (greedy_assemble S O sep subs) := by
  unfold greedy_assemble
  refine chain'_seal_current O sep _ (greedyInv_foldl S O sep hO subs _ ?_)
  exact ⟨fun _ => rfl, List.chain'_nil, fun ht _ => absurd rfl ht⟩

/-- C4 counterexample.  On `"aa b cc"` with `S = 4`, `O = 2`, the chunker
returns the adjacent pair `"aa b"`, `"b\n\nb\nb cc"`; the last 2 tokens of
the first chunk decode to `" b"`, which is not a prefix of the second chunk:
the `.strip()` applied to every sealed chunk (line 169/191 of
`parse_and_chunk.py`) removes the overlap's leading whitespace. -/
theorem overlap_prefix_counterexample :
    split_text_into_chunks "aa b cc".toList 4 2 =
      ["aa b".toList, "b\n\nb\nb cc".toList] ∧
    (overlap_seed 2 "aa b".toList).isPrefixOf "b\n\nb\nb cc".toList = false := by
  decide

/-- C4, amended.  For a positive overlap, every pair of adjacent chunks
produced by `split_text_into_chunks` satisfies: the later chunk is the
whitespace-stripped form of a text that begins with the decoded
last-`O`-token overlap of the earlier chunk.  (The overlap is therefore a
prefix of the later chunk only up to the leading-whitespace strip — not
literally, as the counterexample shows.) -/
theorem overlap_continuity_upto_strip (text : List Char) (S O : ℕ)
    (hO : 0 < O) :
    List.Chain' (OverlapRel O) (split_text_into_chunks text S O) := by
  have hdef : split_text_into_chunks text S O =
      if (get_tokens text).length ≤ S then [text]
      else
        greedy_assemble S O ['\n', '\n']
          ((pySplit ['\n', '\n'] text).map
            (recursive_split S O [['\n'], [' ']])).flatten := rfl
  rw [hdef]
  by_cases h : (get_tokens text).length ≤ S
  · rw [if_pos h]
    exact List.chain'_singleton _
  · rw [if_neg h]
    exact chain'_greedy_assemble S O _ _ hO

set_option maxHeartbeats 1000000 in
/-- Witness for the amended C4 theorem at `"aa b cc"`, `S = 4`, `O = 2`. -/
theorem overlap_continuity_upto_strip_witness :
    List.Chain' (OverlapRel 2) (split_text_into_chunks "aa b cc".toList 4 2) :=
  overlap_continuity_upto_strip "aa b cc".toList 4 2 (by decide)

/-! ## Lemmas about the retrieval store -/

/-- Resolution distributes over appended raw results. -/
theorem resolveHits_append (meta : List ChunkMeta) (a b : List (ℤ × ℤ)) :
    resolveHits meta (a ++ b) = resolveHits meta a ++ resolveHits meta b :=
  List.filterMap_append ..

/-- The FAISS padding entries (label `-1`) resolve to nothing. -/
theorem resolveHits_replicate_pad (meta : List ChunkMeta) (n : ℕ) :
    resolveHits meta (List.replicate n ((-1 : ℤ), (0 : ℤ))) = [] := by
  induction n with
  | zero => rfl
  | succ m ih =>
    rw [List.replicate_succ]
    unfold resolveHits at ih ⊢
    rw [List.filterMap_cons]
    simp only [ih]
    rw [dif_neg (by omega)]

/-- Resolution keeps the raw distances, so a distance-sorted raw list
resolves to a distance-sorted hit list. -/
theorem resolveHits_pairwise (meta : List ChunkMeta) :
    ∀ raw : List (ℤ × ℤ), List.Pairwise distLE raw →
      List.Pairwise (fun a b => a.distance ≤ b.distance) (resolveHits meta raw) := by
  intro raw
  induction raw with
  | nil => intro _; exact List.Pairwise.nil
  | cons e rest ih =>
    intro hp
    rw [List.pairwise_cons] at hp
    unfold resolveHits
    rw [List.filterMap_cons]
    by_cases hvalid : 0 ≤ e.1 ∧ e.1.toNat < meta.length
    · rw [dif_pos hvalid]
      rw [List.pairwise_cons]
      refine ⟨?_, ih hp.2⟩
      intro h hmem
      rcases List.mem_filterMap.mp hmem with ⟨e', he', hfe'⟩
      by_cases hv' : 0 ≤ e'.1 ∧ e'.1.toNat < meta.length
      · rw [dif_pos hv'] at hfe'
        have : h.distance = e'.2 := by
          rw [← Option.some_inj.mp hfe']
          rfl
        rw [this]
        exact hp.1 e' he'
      · rw [dif_neg hv'] at hfe'
        exact absurd hfe' (by simp)
    · rw [dif_neg hvalid]
      exact ih hp.2

/-- Resolution never returns more hits than raw entries. -/
theorem resolveHits_length_le (meta : List ChunkMeta) (raw : List (ℤ × ℤ)) :
    (resolveHits meta raw).length ≤ raw.length :=
  List.length_filterMap_le ..

/-! ## Claim theorems: retrieval store -/

/-- C2.  Over an index built from `meta` (so with index/metadata parity by
construction), `retrieve_chunks` returns at most `min k (len metadata)`
results, in non-decreasing distance order: the FAISS flat search returns
distances ascending with `-1` padding beyond the index size, padding is
skipped by the resolution loop, and resolution preserves order. -/
theorem retrieve_chunks_sorted_le_min (enc : List Char → List ℤ)
    (meta : List ChunkMeta) (q : List Char) (k : ℤ) (hk : 1 ≤ k) :
    (retrieve_chunks (buildFromMetadata enc meta) q k).length ≤
        min k.toNat meta.length ∧
    List.Pairwise (fun a b => a.distance ≤ b.distance)
      (retrieve_chunks (buildFromMetadata enc meta) q k) := by
  unfold retrieve_chunks buildFromMetadata
  by_cases hmeta : meta = []
  · simp [hmeta]
  · rw [if_neg (by simp [hmeta])]
    unfold retrieveBody
    rw [if_neg (by omega)]
    unfold faissSearch
    set scored : List (ℤ × ℤ) :=
      (meta.map fun c => enc c.text).enum.map
        (fun p => ((p.1 : ℤ), l2sq (enc q) p.2)) with hscored
    set sorted := List.insertionSort distLE scored with hsorted
    have hslen : sorted.length = meta.length := by
      rw [hsorted, (List.perm_insertionSort distLE scored).length_eq, hscored]
      simp
    have hsort : List.Pairwise distLE sorted :=
      List.sorted_insertionSort distLE scored
    have htake : List.Pairwise distLE (sorted.take k.toNat) :=
      hsort.sublist (List.take_sublist ..)
    constructor
    · rw [resolveHits_append, resolveHits_replicate_pad, List.append_nil]
      calc (resolveHits meta (sorted.take k.toNat)).length
          ≤ (sorted.take k.toNat).length := resolveHits_length_le ..
        _ ≤ min k.toNat meta.length := by rw [List.length_take, hslen]
    · rw [resolveHits_append, resolveHits_replicate_pad, List.append_nil]
      exact resolveHits_pairwise meta _ htake

/-- A single-chunk metadata list used to instantiate witnesses. -/
def demoChunk : ChunkMeta :=
  ⟨"Total revenue was 10.".toList, "MSFT".toList, "2023".toList,
   "MSFT_2023.htm".toList, some "MSFT_2023_chunk_0000".toList, 1⟩

/-- A built pipeline over the single demo chunk, with a trivial embedding
capability. -/
def demoRag : RAGPipeline := buildFromMetadata (fun _ => [(0 : ℤ)]) [demoChunk]

/-- Witness for C2 at the demo pipeline with `k = 1`. -/
theorem retrieve_chunks_sorted_le_min_witness :
    (retrieve_chunks demoRag "revenue".toList 1).length ≤
        min (1 : ℤ).toNat [demoChunk].length ∧
    List.Pairwise (fun a b => a.distance ≤ b.distance)
      (retrieve_chunks demoRag "revenue".toList 1) :=
  retrieve_chunks_sorted_le_min (fun _ => [(0 : ℤ)]) [demoChunk]
    "revenue".toList 1 (by decide)

/-- C3.  Every result of `retrieve_chunks` is resolved from a metadata
position inside `[0, len(metadata))`, and a raw search entry outside that
range is skipped by the resolution loop (it merely drops out; no failure,
no out-of-bounds access — the loop is total). -/
theorem retrieve_chunks_positions_valid (rag : RAGPipeline) (q : List Char)
    (k : ℤ) :
    (∀ h ∈ retrieve_chunks rag q k,
      ∃ (i : ℕ) (hi : i < rag.chunks_metadata.length) (d : ℤ),
        h = mkHit (rag.chunks_metadata.get ⟨i, hi⟩) d) ∧
    (∀ (idx : ℤ) (d : ℤ) (raw : List (ℤ × ℤ)),
      idx < 0 ∨ (rag.chunks_metadata.length : ℤ) ≤ idx →
      resolveHits rag.chunks_metadata ((idx, d) :: raw) =
        resolveHits rag.chunks_metadata raw) := by
  constructor
  · intro h hmem
    unfold retrieve_chunks at hmem
    by_cases hguard : rag.modelLoaded = false ∨ rag.index.isNone = true ∨
        rag.chunks_metadata = []
    · rw [if_pos hguard] at hmem
      simp at hmem
    · rw [if_neg hguard] at hmem
      unfold retrieveBody at hmem
      by_cases hk : k ≤ 0
      · rw [if_pos hk] at hmem
        simp at hmem
      · rw [if_neg hk] at hmem
        simp only at hmem
        rcases List.mem_filterMap.mp hmem with ⟨e, _, hfe⟩
        by_cases hv : 0 ≤ e.1 ∧ e.1.toNat < rag.chunks_metadata.length
        · rw [dif_pos hv] at hfe
          exact ⟨e.1.toNat, hv.2, e.2, (Option.some_inj.mp hfe).symm⟩
        · rw [dif_neg hv] at hfe
          exact absurd hfe (by simp)
  · intro idx d raw hout
    unfold resolveHits
    rw [List.filterMap_cons]
    rw [dif_neg (by simp only; omega)]

/-- Witness for C3: at the demo pipeline the only hit resolves from
position 0, and a raw `-1` label is skipped. -/
theorem retrieve_chunks_positions_valid_witness :
    (∃ (i : ℕ) (hi : i < demoRag.chunks_metadata.length) (d : ℤ),
      mkHit demoChunk 0 = mkHit (demoRag.chunks_metadata.get ⟨i, hi⟩) d) ∧
    resolveHits demoRag.chunks_metadata [((-1 : ℤ), (0 : ℤ))] =
      resolveHits demoRag.chunks_metadata [] :=
  ⟨(retrieve_chunks_positions_valid demoRag "revenue".toList 1).1
      (mkHit demoChunk 0) (by decide),
   (retrieve_chunks_positions_valid demoRag "revenue".toList 1).2
      (-1) 0 [] (by decide)⟩

/-- C6 counterexample.  An empty query string is not treated as an input
error: it is embedded like any other string and retrieves results normally
— on the demo pipeline it returns one chunk, not the empty list the claim
requires for input errors. -/
theorem empty_query_counterexample :
    retrieve_chunks demoRag [] 1 ≠ [] := by decide

/-- C6, amended.  `retrieve_chunks` never raises to its caller: the body is
wrapped in try/except and any raised error — in particular the invalid-`k`
error the index search raises for `k ≤ 0` — yields `[]`, as does an
uninitialized pipeline.  An empty query, however, is not an error and
returns normal results (see the counterexample). -/
theorem retrieve_chunks_nonpos_k (rag : RAGPipeline) (q : List Char) (k : ℤ)
    (hk : k ≤ 0) : retrieve_chunks rag q k = [] := by
  unfold retrieve_chunks
  by_cases hguard : rag.modelLoaded = false ∨ rag.index.isNone = true ∨
      rag.chunks_metadata = []
  · rw [if_pos hguard]
  · rw [if_neg hguard]
    unfold retrieveBody
    rw [if_pos hk]

/-- Witness for the amended C6 theorem at `k = 0` on the demo pipeline. -/
theorem retrieve_chunks_nonpos_k_witness :
    retrieve_chunks demoRag "revenue".toList 0 = [] :=
  retrieve_chunks_nonpos_k demoRag "revenue".toList 0 (by decide)

/-! ## Claim theorems: index loading -/

/-- A freshly constructed pipeline: model loaded, no index, no metadata. -/
def initRag : RAGPipeline := ⟨true, fun _ => [(0 : ℤ)], none, []⟩

/-- A disk where the index file reads fine but the metadata file exists and
fails to parse. -/
def corruptMetaDisk : Disk := ⟨some (some [[(1 : ℤ)]]), some none⟩

/-- C7 counterexample.  With a readable index file and a present-but-corrupt
metadata file, `load_or_create_index` installs the index, the metadata
loader fails, its `False` return value is ignored (line 88 of
`embed_and_store.py`), and the method reports success with the metadata left
unloaded — no rebuild happens, contradicting the claim. -/
theorem load_success_without_metadata_counterexample :
    (load_or_create_index corruptMetaDisk initRag).1 = true ∧
    (load_or_create_index corruptMetaDisk initRag).2.chunks_metadata = [] ∧
    (load_or_create_index corruptMetaDisk initRag).2.index = some [[(1 : ℤ)]] :=
  ⟨rfl, rfl, rfl⟩

/-- C7, amended.  The fallback does hold for the conditions the code checks:
whenever the index file or the metadata file is missing, or reading the
index raises, `load_or_create_index` performs a full rebuild.  But when both
files exist and the index reads successfully, a metadata file that fails to
parse does not trigger the fallback: the parse error is caught inside the
metadata loader, its failure flag is ignored, and load reports success with
the metadata unloaded (see the counterexample). -/
theorem load_falls_back_to_rebuild (d : Disk) (st : RAGPipeline)
    (h : d.faiss_index = none ∨ d.chunk_metadata = none ∨
      d.faiss_index = some none) :
    load_or_create_index d st = create_and_save_embeddings_and_index d st := by
  obtain ⟨fi, md⟩ := d
  cases fi with
  | none => rfl
  | some fio =>
    cases md with
    | none => rfl
    | some mdo =>
      cases fio with
      | none => rfl
      | some vecs => simp at h

/-- Witness for the amended C7 theorem: both files missing. -/
theorem load_falls_back_to_rebuild_witness :
    load_or_create_index ⟨none, none⟩ initRag =
      create_and_save_embeddings_and_index ⟨none, none⟩ initRag :=
  load_falls_back_to_rebuild ⟨none, none⟩ initRag (Or.inl rfl)

/-! ## Claim theorems: orchestrator -/

/-- C8.  If retrieval returns no chunks for every sub-query the orchestrator
uses, then `answer_query` emits the fixed could-not-find answer with an
empty sources list and the synthesis stage makes zero generation calls
(`_synthesize_answer` short-circuits before building a prompt). -/
theorem answer_query_empty_retrieval (rag : RAGPipeline)
    (gen : List Char → List Char) (query : List Char)
    (hempty : ∀ q ∈ computeSubQueries gen query, retrieve_chunks rag q 5 = []) :
    (answer_query rag gen query).answer = noInfoAnswer ∧
    (answer_query rag gen query).sources = [] ∧
    (answer_query rag gen query).synthesisGenCalls = 0 := by
  have hall :
      ((computeSubQueries gen query).map fun q => retrieve_chunks rag q 5).flatten
        = [] := by
    rw [List.flatten_eq_nil_iff]
    intro l hl
    rcases List.mem_map.mp hl with ⟨q, hq, rfl⟩
    exact hempty q hq
  simp only [answer_query]
  rw [hall]
  exact ⟨rfl, rfl, rfl⟩

/-- Witness for C8: a pipeline with no index retrieves nothing for any
query, and the agent answers with the fixed no-information output. -/
theorem answer_query_empty_retrieval_witness :
    (answer_query initRag (fun _ => []) "hello".toList).answer = noInfoAnswer ∧
    (answer_query initRag (fun _ => []) "hello".toList).sources = [] ∧
    (answer_query initRag (fun _ => []) "hello".toList).synthesisGenCalls = 0 :=
  answer_query_empty_retrieval initRag (fun _ => []) "hello".toList
    (fun _ _ => rfl)

/-! ## Deduplication lemmas -/

/-- One iteration of the dedup dict-insertion: keep the chunk only when its
key is new. -/
def dedupStep (acc : List RetrievedChunk) (c : RetrievedChunk) :
    List RetrievedChunk :=
  if keyMem (dedupKey c) acc then acc else acc ++ [c]

/-- A key is present after the fold iff it was present before or occurs in
the input. -/
theorem keyMem_foldl_dedupStep (k : List Char) :
    ∀ (l : List RetrievedChunk) (acc : List RetrievedChunk),
      keyMem k (l.foldl dedupStep acc) =
        (keyMem k acc || l.any fun c => dedupKey c = k) := by
  intro l
  induction l with
  | nil => intro acc; simp
  | cons c l ih =>
    intro acc
    rw [List.foldl_cons, ih]
    have hstep : keyMem k (dedupStep acc c) =
        (keyMem k acc || decide (dedupKey c = k)) := by
      unfold dedupStep
      by_cases hc : keyMem (dedupKey c) acc
      · rw [if_pos hc]
        by_cases hk : dedupKey c = k
        · subst hk
          simp [hc]
        · simp [hk]
      · rw [if_neg hc]
        simp [keyMem, List.any_append]
    rw [hstep, List.any_cons]
    cases keyMem k acc <;> simp

/-- Folding over input whose keys are all already present is a no-op. -/
theorem foldl_dedupStep_absorbed :
    ∀ (l : List RetrievedChunk) (acc : List RetrievedChunk),
      (∀ c ∈ l, keyMem (dedupKey c) acc = true) → l.foldl dedupStep acc = acc := by
  intro l
  induction l with
  | nil => intro acc _; rfl
  | cons c l ih =>
    intro acc h
    rw [List.foldl_cons]
    have hc : dedupStep acc c = acc := by
      unfold dedupStep
      rw [if_pos (h c (by simp))]
    rw [hc]
    exact ih acc fun c' hc' => h c' (by simp [hc'])

/-- The fold keeps the kept keys distinct. -/
theorem nodup_keys_foldl_dedupStep :
    ∀ (l : List RetrievedChunk) (acc : List RetrievedChunk),
      ((acc.map dedupKey).Nodup) →
      (((l.foldl dedupStep acc).map dedupKey).Nodup) := by
  intro l
  induction l with
  | nil => intro acc h; exact h
  | cons c l ih =>
    intro acc h
    rw [List.foldl_cons]
    refine ih _ ?_
    unfold dedupStep
    by_cases hc : keyMem (dedupKey c) acc
    · rw [if_pos hc]
      exact h
    · rw [if_neg hc]
      rw [List.map_append]
      simp only [List.map_cons, List.map_nil]
      rw [List.nodup_append]
      refine ⟨h, List.nodup_singleton _, ?_⟩
      intro x hx hx'
      simp only [List.mem_singleton] at hx'
      subst hx'
      rcases List.mem_map.mp hx with ⟨a, ha, hka⟩
      apply hc
      unfold keyMem
      rw [List.any_eq_true]
      exact ⟨a, ha, by simp [hka]⟩

/-- The fold appends a subsequence of its input to the accumulator. -/
theorem foldl_dedupStep_sublist :
    ∀ (l : List RetrievedChunk) (acc : List RetrievedChunk),
      ∃ s, l.foldl dedupStep acc = acc ++ s ∧ s.Sublist l := by
  intro l
  induction l with
  | nil => intro acc; exact ⟨[], by simp, List.nil_sublist _⟩
  | cons c l ih =>
    intro acc
    rw [List.foldl_cons]
    have hstep : dedupStep acc c =
        if keyMem (dedupKey c) acc then acc else acc ++ [c] := rfl
    rw [hstep]
    by_cases hc : keyMem (dedupKey c) acc
    · rw [if_pos hc]
      rcases ih acc with ⟨s, hs, hsub⟩
      exact ⟨s, hs, hsub.cons c⟩
    · rw [if_neg hc]
      rcases ih (acc ++ [c]) with ⟨s, hs, hsub⟩
      refine ⟨c :: s, ?_, hsub.cons₂ c⟩
      rw [hs, List.append_assoc]
      rfl

/-- C9.  The dedup of `answer_query` is idempotent under repeated input
(running the same sub-query twice leaves the result unchanged), keeps at
most one entry per key, keeps entries in first-seen order (the result is a
subsequence of the input), and keeps an entry for every input key. -/
theorem dedup_idempotent_first_seen (l : List RetrievedChunk) :
    dedupChunks (l ++ l) = dedupChunks l ∧
    ((dedupChunks l).map dedupKey).Nodup ∧
    (dedupChunks l).Sublist l ∧
    (∀ c ∈ l, ∃ c' ∈ dedupChunks l, dedupKey c' = dedupKey c) := by
  have hfold : ∀ m : List RetrievedChunk, dedupChunks m = m.foldl dedupStep [] := by
    intro m
    rfl
  refine ⟨?_, ?_, ?_, ?_⟩
  · rw [hfold, hfold, List.foldl_append]
    refine foldl_dedupStep_absorbed l _ ?_
    intro c hc
    rw [keyMem_foldl_dedupStep]
    simp only [Bool.or_eq_true, List.any_eq_true]
    exact Or.inr ⟨c, hc, by simp⟩
  · rw [hfold]
    exact nodup_keys_foldl_dedupStep l [] (by simp)
  · rw [hfold]
    rcases foldl_dedupStep_sublist l [] with ⟨s, hs, hsub⟩
    rw [hs]
    simpa using hsub
  · intro c hc
    have : keyMem (dedupKey c) (dedupChunks l) = true := by
      rw [hfold, keyMem_foldl_dedupStep]
      simp only [Bool.or_eq_true, List.any_eq_true]
      exact Or.inr ⟨c, hc, by simp⟩
    simp only [keyMem, List.any_eq_true, decide_eq_true_eq] at this
    exact this

/-- Witness for C9 at a concrete one-hit result list. -/
theorem dedup_idempotent_first_seen_witness :
    dedupChunks ([mkHit demoChunk 0] ++ [mkHit demoChunk 0]) =
        dedupChunks [mkHit demoChunk 0] ∧
    ((dedupChunks [mkHit demoChunk 0]).map dedupKey).Nodup ∧
    (dedupChunks [mkHit demoChunk 0]).Sublist [mkHit demoChunk 0] ∧
    (∃ c' ∈ dedupChunks [mkHit demoChunk 0],
      dedupKey c' = dedupKey (mkHit demoChunk 0)) :=
  ⟨(dedup_idempotent_first_seen [mkHit demoChunk 0]).1,
   (dedup_idempotent_first_seen [mkHit demoChunk 0]).2.1,
   (dedup_idempotent_first_seen [mkHit demoChunk 0]).2.2.1,
   (dedup_idempotent_first_seen [mkHit demoChunk 0]).2.2.2
     (mkHit demoChunk 0) (by simp)⟩

/-- C10 counterexample.  For a passage of at most 200 characters the
excerpt is the *entire* passage text with `"..."` appended: it does carry
the full passage text, and it is not a prefix of the passage text — the
claim's "bounded-length prefix …, never the full passage text" fails. -/
theorem excerpt_counterexample :
    (synthesize_answer (fun _ => []) "q".toList [mkHit demoChunk 0]
        ["q".toList]).sources.map SourceEntry.excerpt =
      [demoChunk.text ++ "...".toList] ∧
    demoChunk.text.isPrefixOf (demoChunk.text ++ "...".toList) = true ∧
    (demoChunk.text ++ "...".toList).isPrefixOf demoChunk.text = false := by
  decide

/-- C10, amended.  Every excerpt is the first 200 characters of the
passage's text with an ellipsis appended, so its length is bounded by 203;
for passages longer than 200 characters the tail never appears, but for
shorter passages the excerpt contains the whole text (see the
counterexample). -/
theorem excerpt_is_bounded_take (gen : List Char → List Char) (q : List Char)
    (data : List RetrievedChunk) (subqs : List (List Char)) :
    (synthesize_answer gen q data subqs).sources.map SourceEntry.excerpt =
      data.map (fun d => d.text.take 200 ++ "...".toList) ∧
    ∀ s ∈ (synthesize_answer gen q data subqs).sources,
      s.excerpt.length ≤ 203 := by
  unfold synthesize_answer
  by_cases hd : data = []
  · rw [if_pos hd, hd]
    exact ⟨rfl, by intro s hs; simp at hs⟩
  · rw [if_neg hd]
    constructor
    · simp [List.map_map]
    · intro s hs
      simp only [List.mem_map] at hs
      rcases hs with ⟨d, _, rfl⟩
      simp only [List.length_append, List.length_take]
      have : ("...".toList).length = 3 := rfl
      omega

/-- Witness for the amended C10 theorem at a one-chunk retrieval. -/
theorem excerpt_is_bounded_take_witness :
    (synthesize_answer (fun _ => []) "q".toList [mkHit demoChunk 0]
        ["q".toList]).sources.map SourceEntry.excerpt =
      [mkHit demoChunk 0].map (fun d => d.text.take 200 ++ "...".toList) ∧
    (⟨demoChunk.company, demoChunk.year,
        demoChunk.text.take 200 ++ "...".toList, demoChunk.page,
        demoChunk.source_doc⟩ : SourceEntry).excerpt.length ≤ 203 :=
  ⟨(excerpt_is_bounded_take (fun _ => []) "q".toList [mkHit demoChunk 0]
      ["q".toList]).1,
   (excerpt_is_bounded_take (fun _ => []) "q".toList [mkHit demoChunk 0]
      ["q".toList]).2 _ (by decide)⟩

end FinRag
